import Mathlib

/-!
Verification of the CDLL (circular doubly linked list) sequence container
from `ds/cdll.py`.

Two shallow embeddings are used, at the two granularities the claims need:

* a value-level model, where a container is the `List` of its values in
  iteration order (head first); each public operation of `CDLList` is
  translated branch-for-branch from the Python source, fallible operations
  returning `Except Err` / `Option`;
* a pointer-level model (`CDLList` below), where nodes live in an arena and
  `left` / `right` are arena indices, used for the claims about the link
  graph itself (cycle invariant, node iteration).

Python `int` is modelled as `Int` (sizes and indices as `Nat` where the
source guarantees non-negativity), Python floor division and modulo on
non-negative operands as `Nat` division / modulo.
-/

deriving instance DecidableEq for Except

/-- Error taxonomy of `ds/errors.py` together with the builtin Python
exceptions the source raises.  `emptyAccess` is `EmptyInstanceHeadAccess`,
`invalidSlice` is `InvalidIntegerSliceError`, `indexError` carries the
(already normalised) index of the `IndexError` message, `valueError` models
`ValueError` (carrying the offending integer), `lengthMismatch` carries the
two lengths stated in the extended-slice assignment message, and
`zeroDivision` is Python's `ZeroDivisionError`. -/
inductive Err where
  | emptyAccess : Err
  | indexError : Int → Err
  | valueError : Int → Err
  | invalidSlice : Err
  | lengthMismatch : Nat → Nat → Err
  | zeroDivision : Err
deriving DecidableEq

/-- `CDLList.peek` (value mode), from `cdll.py`.  A negative index gets
`size` added once; an index out of `[0, size)` yields `none` (the
`errors='ignore'` outcome; the `errors='raise'` callers map `none` to an
`IndexError`).  The shortest-direction traversal is kept: for an index past
the midpoint the source walks `left` from the tail `size - index - 1`
steps, which visits the node at position `size - 1 - (size - index - 1)`
of the iteration order, i.e. position `index` read off the reversed list. -/
def peekM (l : List α) (index : Int) : Option α :=
  let index := if index < 0 then index + l.length else index
  if index < 0 ∨ (l.length : Int) ≤ index then none
  else
    let idx := index.toNat
    if l.length / 2 < idx then
      l.reverse.get? (l.length - idx - 1)
    else
      l.get? idx

/-- `CDLList.head` property getter: fails with the empty-access error on a
zero-size container. -/
def headM (l : List α) : Except Err α :=
  if l.length = 0 then .error .emptyAccess
  else match l with
  | x :: _ => .ok x
  | [] => .error .emptyAccess

/-- `CDLList.tail` property getter (`head.left`). -/
def tailM (l : List α) : Except Err α :=
  if l.length = 0 then .error .emptyAccess
  else match l.getLast? with
  | some x => .ok x
  | none => .error .emptyAccess

/-- `CDLList.popleft`: empty fails with the empty-access error, a singleton
drops to the empty container, otherwise the head is unlinked and the head
pointer moves one step right — on the value list, the tail of the list. -/
def popleftM (l : List α) : Except Err (α × List α) :=
  if l.length = 0 then .error .emptyAccess
  else match l with
  | x :: xs => .ok (x, xs)
  | [] => .error .emptyAccess

/-- `CDLList.pop` from `cdll.py`, branch for branch.  Note the order of the
checks in the source: the out-of-range check (`index < 0 or index >=
self.size`) comes BEFORE the `size == 0` empty check, so the
`EmptyInstanceHeadAccess` branch is unreachable.  Removing the node at a
valid interior position relinks its two neighbours, i.e. erases position
`index` of the value list. -/
def popM (l : List α) (index : Int) : Except Err (α × List α) :=
  let index := if index < 0 then index + l.length else index
  if index < 0 ∨ (l.length : Int) ≤ index then .error (.indexError index)
  else if l.length = 0 then .error .emptyAccess
  else if l.length = 1 then
    match l with
    | x :: _ => .ok (x, [])
    | [] => .error .emptyAccess
  else if index = 0 then popleftM l
  else
    match l.get? index.toNat with
    | some v => .ok (v, l.eraseIdx index.toNat)
    | none => .error (.indexError index)

/-- `CDLList.__lt__`: `self.size < other.size if (self.size and other.size)
else True` — sizes only, `True` whenever either operand is empty. -/
def ltM (a b : List α) : Bool :=
  if a.length ≠ 0 ∧ b.length ≠ 0 then a.length < b.length else true

/-- `CDLList.__le__`: sizes only, `True` whenever either operand is empty. -/
def leM (a b : List α) : Bool :=
  if a.length ≠ 0 ∧ b.length ≠ 0 then a.length ≤ b.length else true

/-- `CDLList.__gt__`: sizes only, `False` whenever either operand is empty. -/
def gtM (a b : List α) : Bool :=
  if a.length ≠ 0 ∧ b.length ≠ 0 then b.length < a.length else false

/-- `CDLList.__ge__`: sizes only, `False` whenever either operand is empty. -/
def geM (a b : List α) : Bool :=
  if a.length ≠ 0 ∧ b.length ≠ 0 then b.length ≤ a.length else false

/-- Python `slice.indices(length)` (CPython `PySlice_GetIndicesEx`) for an
integer-or-`None` slice, as used through `index.indices(self.size)` in the
source.  `none` components mean an omitted bound; an omitted step is `1`.
Returns the normalised `(start, stop, step)`. -/
def sliceNorm (start stop step : Option Int) (len : Nat) : Int × Int × Int :=
  let step : Int := step.getD 1
  let lower : Int := if step < 0 then -1 else 0
  let upper : Int := if step < 0 then (len : Int) - 1 else (len : Int)
  let start : Int :=
    match start with
    | none => if step < 0 then upper else lower
    | some s =>
      if s < 0 then (if s + len < lower then lower else s + len)
      else (if upper < s then upper else s)
  let stop : Int :=
    match stop with
    | none => if step < 0 then lower else upper
    | some e =>
      if e < 0 then (if e + len < lower then lower else e + len)
      else (if upper < e then upper else e)
  (start, stop, step)

/-- Number of positions of the normalised slice, Python
`len(range(start, stop, step))`. -/
def sliceCount (start stop step : Int) : Nat :=
  if 0 < step then
    if start < stop then (stop - start - 1).toNat / step.toNat + 1 else 0
  else
    if stop < start then (start - stop - 1).toNat / (-step).toNat + 1 else 0

/-- The positions of `range(start, stop, step)` after normalisation against
`len`, in range order — the `points` of the slice branches of the source. -/
def slicePts (start stop step : Option Int) (len : Nat) : List Int :=
  let (s, e, st) := sliceNorm start stop step len
  (List.range (sliceCount s e st)).map fun k : Nat => s + (k : Int) * st

/-- `CDLList.__getitem__` with a slice argument: validation (a zero step is
the one failure an integer slice can produce, wrapped in
`InvalidIntegerSliceError`), then `from_iterable(self[i] for i in
range(*index.indices(self.size)))`, each positional read via `peek` with
`errors='raise'`. -/
def getitemSlice (l : List α) (start stop step : Option Int) :
    Except Err (List α) :=
  if step = some 0 then .error .invalidSlice
  else
    match (slicePts start stop step l.length).mapM fun i => peekM l i with
    | some vs => .ok vs
    | none => .error (.indexError 0)

mutual

/-- `CDLList.__rshift__`, branch for branch.  `by == 0` returns a copy
(same values); negative delegates to the left shift; `by >= size` evaluates
`self or (self >> (by % self.size))` — a non-empty container is truthy so
`self` is returned unrotated, an empty container falls through to
`by % 0`, a `ZeroDivisionError` (modelled `none`); `by > size // 2`
delegates to the complementary left shift; otherwise the head is reseated
to the node at position `by`, so the iteration order rotates by `by`. -/
def rshiftM (l : List α) (amt : Int) : Option (List α) :=
  if _h0 : amt = 0 then some l
  else if _hn : amt < 0 then lshiftM l (-amt)
  else if _h1 : (l.length : Int) ≤ amt then
    if l.length ≠ 0 then some l else none
  else if _h2 : (↑(l.length / 2) : Int) < amt then
    lshiftM l ((l.length : Int) - amt)
  else
    match peekM l amt with
    | some _ => some (l.drop amt.toNat ++ l.take amt.toNat)
    | none => none
termination_by 2 * amt.natAbs + (if amt < 0 then 1 else 0)
decreasing_by
  · split_ifs <;> omega
  · split_ifs <;> omega

/-- `CDLList.__lshift__`, branch for branch, mirror image of the right
shift; the base case reseats the head to `peek(-by)`, the node at position
`size - by`, rotating the iteration order by `size - by`. -/
def lshiftM (l : List α) (amt : Int) : Option (List α) :=
  if _h0 : amt = 0 then some l
  else if _hn : amt < 0 then rshiftM l (-amt)
  else if _h1 : (l.length : Int) ≤ amt then
    if l.length ≠ 0 then some l else none
  else if _h2 : (↑(l.length / 2) : Int) < amt then
    rshiftM l ((l.length : Int) - amt)
  else
    match peekM l (-amt) with
    | some _ =>
      some (l.drop (l.length - amt.toNat) ++ l.take (l.length - amt.toNat))
    | none => none
termination_by 2 * amt.natAbs + (if amt < 0 then 1 else 0)
decreasing_by
  · split_ifs <;> omega
  · split_ifs <;> omega

end

/-- `CDLList.__delitem__` with a slice argument, branch for branch: a range
covering every position clears; an empty range or empty container is a
no-op; step `±1` relinks around the contiguous block in one step (the head
reseat has no effect on the value order); any other step pops the affected
positions one at a time, in descending index order when the range ascends
(`reversed(points)`), else in the range's own descending order. -/
def delitemSlice (l : List α) (start stop step : Option Int) :
    Except Err (List α) :=
  if step = some 0 then .error .invalidSlice
  else
    let snorm := sliceNorm start stop step l.length
    let pts := slicePts start stop step l.length
    if pts.length = l.length then .ok []
    else if pts.length = 0 ∨ l.length = 0 then .ok l
    else if snorm.2.2 = 1 ∨ snorm.2.2 = -1 then
      let p := if snorm.2.2 = 1 then (snorm.1, snorm.2.1 - 1)
               else (snorm.2.1 + 1, snorm.1)
      match peekM l p.1, peekM l p.2 with
      | some _, some _ => .ok (l.take p.1.toNat ++ l.drop (p.2.toNat + 1))
      | _, _ => .error (.indexError 0)
    else
      let pts2 := if snorm.1 < snorm.2.1 then pts.reverse else pts
      pts2.foldlM (fun acc i => (popM acc i).map Prod.snd) l

/-- `CDLList.__setitem__` with a slice argument, branch for branch: a step-1
range covering everything clears then extends with the new values (the
`reversed` correction is dead code there, the branch requires `step == 1`);
a step-1 range deletes the old range then splices the new chain after
`peek(start - 1)` — reseating the head when the range included position 0;
any other step demands exactly as many values as positions, failing with
the length-mismatch `ValueError` stating both lengths BEFORE any element is
written, then assigns position by position. -/
def setitemSlice (l : List α) (start stop step : Option Int)
    (vals : List α) : Except Err (List α) :=
  if step = some 0 then .error .invalidSlice
  else
    let snorm := sliceNorm start stop step l.length
    let pts := slicePts start stop step l.length
    if pts.length = l.length ∧ snorm.2.2 = 1 then
      .ok (if snorm.2.2 < 0 then vals.reverse else vals)
    else if snorm.2.2 = 1 then
      match delitemSlice l (some snorm.1) (some snorm.2.1) (some 1) with
      | .error err => .error err
      | .ok l2 =>
        if vals.length = 0 then .ok l2
        else
          match peekM l2 (snorm.1 - 1) with
          | none => .error (.indexError (snorm.1 - 1))
          | some _ =>
            let pos := (if snorm.1 - 1 < 0 then snorm.1 - 1 + l2.length
                        else snorm.1 - 1).toNat + 1
            if (0 : Int) ∈ pts then .ok (vals ++ l2)
            else .ok (l2.take pos ++ vals ++ l2.drop pos)
    else
      if pts.length ≠ vals.length then
        .error (.lengthMismatch vals.length pts.length)
      else
        .ok ((pts.zip vals).foldl (fun acc p => acc.set p.1.toNat p.2) l)

/-- The loop body of `CDLList.__floordiv__`: `enumerate(self)` with the
current chunk `cur` and the finished chunks `res`; a position that is a
non-zero member of `points = range(0, stop, step)` flushes the current
chunk and starts a new one from the current value, any other position is
appended to the current chunk; reaching `i + 1 == stop` flushes and breaks
(positions `>= stop` are never visited). -/
def floordivGo (stepN stopN : Nat) : List α → Nat → List α → List (List α) →
    List (List α)
  | [], _, _, res => res
  | v :: rest, i, cur, res =>
    let cr := if i ≠ 0 ∧ (i < stopN ∧ i % stepN = 0) then ([v], res ++ [cur])
              else (cur ++ [v], res)
    if i + 1 = stopN then cr.2 ++ [cr.1]
    else floordivGo stepN stopN rest (i + 1) cr.1 cr.2

/-- `CDLList.__floordiv__` (`divide(n)`): `n < 1` is a `ValueError`,
`n > size` yields one empty container, else the enumeration loop above with
`step = size // n` and `stop = step * n`. -/
def floordivM (l : List α) (n : Int) : Except Err (List (List α)) :=
  if n < 1 then .error (.valueError n)
  else if (l.length : Int) < n then .ok [[]]
  else
    let stepN := l.length / n.toNat
    .ok (floordivGo stepN (stepN * n.toNat) l 0 [] [])

/-- `CDLList.__mod__` (`remainder(n)`): `n < 1` is a `ValueError`,
`n > size` returns a full copy, else the trailing `size % n` elements via
the slice `self[-rem:]` (the empty container when `n` divides `size`). -/
def modM (l : List α) (n : Int) : Except Err (List α) :=
  if n < 1 then .error (.valueError n)
  else if (l.length : Int) < n then .ok l
  else
    let rem := l.length % n.toNat
    if rem ≠ 0 then getitemSlice l (some (-(rem : Int))) none none
    else .ok []

/-- Specification-side helper: keep the elements of `l` whose position
(counted from `i`) is NOT in `pts`, preserving order.  `keepOut l pts` is
the claim C9 reading of "exactly the elements at the slice positions are
removed". -/
def keepOutFrom (pts : List Int) : Nat → List α → List α
  | _, [] => []
  | i, a :: rest =>
    if (i : Int) ∈ pts then keepOutFrom pts (i + 1) rest
    else a :: keepOutFrom pts (i + 1) rest

/-- Positions counted from `0`. -/
def keepOut (l : List α) (pts : List Int) : List α := keepOutFrom pts 0 l

/-- Specification-side helper: `k` consecutive chunks of `step` elements
each, taken from the front of `l`. -/
def groups (stepN k : Nat) (l : List α) : List (List α) :=
  (List.range k).map fun j => (l.drop (j * stepN)).take stepN

/-- One arena cell: a `Node` of the source, with the `left` / `right`
neighbour references stored as arena indices. -/
structure ANode (α : Type) where
  value : α
  left : Nat
  right : Nat
deriving DecidableEq

/-- The pointer-level container: the arena of all nodes ever allocated
(nodes unlinked by mutations simply stop being reachable), the head index
and the size counter. -/
structure CDLList (α : Type) where
  nodes : List (ANode α)
  head : Nat
  size : Nat
deriving DecidableEq

namespace CDLList

variable {α : Type} [Inhabited α]

/-- Dereference an arena index. -/
def nget (a : CDLList α) (i : Nat) : ANode α := a.nodes.getD i ⟨default, 0, 0⟩

/-- `node.left = j` on the node at index `i`. -/
def setLeft (a : CDLList α) (i j : Nat) : CDLList α :=
  { a with nodes := a.nodes.set i { a.nget i with left := j } }

/-- `node.right = j` on the node at index `i`. -/
def setRight (a : CDLList α) (i j : Nat) : CDLList α :=
  { a with nodes := a.nodes.set i { a.nget i with right := j } }

/-- `CDLList.append`: on the empty container a fresh self-linked node
becomes the head; otherwise `Node(value, left=tail, right=head)` is spliced
in by `tail.right = node; head.left = node`; finally `size += 1`. -/
def append (a : CDLList α) (v : α) : CDLList α :=
  if a.size = 0 then
    let idx := a.nodes.length
    { nodes := a.nodes ++ [⟨v, idx, idx⟩], head := idx, size := a.size + 1 }
  else
    let tl := (a.nget a.head).left
    let idx := a.nodes.length
    let a1 : CDLList α := { a with nodes := a.nodes ++ [⟨v, tl, a.head⟩] }
    let a2 := a1.setRight tl idx
    let a3 := a2.setLeft a2.head idx
    { a3 with size := a3.size + 1 }

/-- `CDLList.appendleft`: as `append` plus reseating the head to the new
node. -/
def appendleft (a : CDLList α) (v : α) : CDLList α :=
  if a.size = 0 then
    let idx := a.nodes.length
    { nodes := a.nodes ++ [⟨v, idx, idx⟩], head := idx, size := a.size + 1 }
  else
    let tl := (a.nget a.head).left
    let idx := a.nodes.length
    let a1 : CDLList α := { a with nodes := a.nodes ++ [⟨v, tl, a.head⟩] }
    let a2 := a1.setRight tl idx
    let a3 := a2.setLeft a2.head idx
    { a3 with head := idx, size := a3.size + 1 }

/-- `CDLList.from_iterable`: start empty, `append` each value. -/
def fromIterable (vs : List α) : CDLList α :=
  vs.foldl (fun a v => a.append v) ⟨[], 0, 0⟩

/-- Follow `right` for `steps` steps. -/
def walkRight (a : CDLList α) (i : Nat) : Nat → Nat
  | 0 => i
  | steps + 1 => a.walkRight (a.nget i).right steps

/-- Follow `left` for `steps` steps. -/
def walkLeft (a : CDLList α) (i : Nat) : Nat → Nat
  | 0 => i
  | steps + 1 => a.walkLeft (a.nget i).left steps

/-- `CDLList.peek` in node mode on an already-normalised in-range index:
walk `left` from the tail `size - index - 1` steps when the index is past
the midpoint, else walk `right` from the head `index` steps. -/
def peekNode (a : CDLList α) (index : Nat) : Nat :=
  if a.size / 2 < index then a.walkLeft (a.nget a.head).left (a.size - index - 1)
  else a.walkRight a.head index

/-- `CDLList.insert`, branch for branch.  The interior case performs
exactly the pointer surgery of the source lines 525-532:
`ith_node.left.right = Node(value, left=ith_node.left, right=ith_node)`
followed by `ith_node.left = ith_node.right`, then `size += 1`. -/
def insert (a : CDLList α) (index : Int) (v : α) : Except Err (CDLList α) :=
  let index := if index < 0 then index + a.size else index
  if index < 0 ∨ (a.size : Int) < index then .error (.indexError index)
  else if index = 0 then .ok (a.appendleft v)
  else if index = (a.size : Int) then .ok (a.append v)
  else
    let ith := a.peekNode index.toNat
    let lf := (a.nget ith).left
    let idx := a.nodes.length
    let a1 : CDLList α := { a with nodes := a.nodes ++ [⟨v, lf, ith⟩] }
    let a2 := a1.setRight lf idx
    let a3 := a2.setLeft ith (a2.nget ith).right
    .ok { a3 with size := a3.size + 1 }

/-- The yield loop of `CDLList.iter_nodes` (non-cyclic): yield the current
node, step (`left` when reversed else `right`), break once the step lands
on the head.  The source loop is unbounded; the model bounds it by a fuel
argument, instantiated with `size`, which is the exact number of yields
the loop performs on a well-formed ring. -/
def iterGo (a : CDLList α) (reverse : Bool) : Nat → Nat → List Nat
  | 0, _ => []
  | fuel + 1, cur =>
    let nxt := if reverse then (a.nget cur).left else (a.nget cur).right
    cur :: (if nxt = a.head then [] else a.iterGo reverse fuel nxt)

/-- `CDLList.iter_nodes` (non-cyclic): empty yields nothing; otherwise the
loop starts at the tail when reversed else at the head, and — only when
reversed — the head is yielded once more after the loop
(`if reverse: yield self.head`). -/
def iterNodesM (a : CDLList α) (reverse : Bool) : List Nat :=
  if a.size = 0 then []
  else
    let start := if reverse then (a.nget a.head).left else a.head
    let main := a.iterGo reverse a.size start
    if reverse then main ++ [a.head] else main

/-- `CDLList.__iter__`: values of the forward node iteration. -/
def iterVals (a : CDLList α) : List α :=
  (a.iterNodesM false).map fun i => (a.nget i).value

/-- `CDLList.__reversed__`: values of the reversed node iteration. -/
def iterValsRev (a : CDLList α) : List α :=
  (a.iterNodesM true).map fun i => (a.nget i).value

/-- The node indices reachable from the head by following `right`, one per
step count `0, ..., size - 1`. -/
def reachIdxs (a : CDLList α) : List Nat :=
  (List.range a.size).map fun k => a.walkRight a.head k

/-- The cycle invariant of spec §3, checked at every node reachable from
the head: `n.left.right == n` and `n.right.left == n`. -/
def cycleOK (a : CDLList α) : Bool :=
  a.reachIdxs.all fun i =>
    ((a.nget (a.nget i).left).right == i) && ((a.nget (a.nget i).right).left == i)

end CDLList

theorem length_ne_zero_of_ne_nil {l : List α} (h : l ≠ []) : l.length ≠ 0 :=
  fun h0 => h (List.length_eq_zero.mp h0)

/-- C10: whenever either container is empty, `<` and `<=` are `True` and
`>`/`>=` are `False` regardless of which side is empty; when both are
non-empty all four operators compare the sizes only. -/
theorem c10_size_only_ordering (a b : List α) :
    ((a = [] ∨ b = []) →
      ltM a b = true ∧ leM a b = true ∧ gtM a b = false ∧ geM a b = false) ∧
    (a ≠ [] → b ≠ [] →
      (ltM a b = true ↔ a.length < b.length) ∧
      (leM a b = true ↔ a.length ≤ b.length) ∧
      (gtM a b = true ↔ b.length < a.length) ∧
      (geM a b = true ↔ b.length ≤ a.length)) := by
  constructor
  · rintro (rfl | rfl) <;> simp [ltM, leM, gtM, geM]
  · intro ha hb
    simp [ltM, leM, gtM, geM, length_ne_zero_of_ne_nil ha,
      length_ne_zero_of_ne_nil hb]

/-- Witness for C10 at the containers built from `[0]`, `[0,1]` and from
`[]`, `[0,1]`. -/
theorem c10_size_only_ordering_w :
    ltM ([0] : List Nat) [0, 1] = true ∧ gtM ([] : List Nat) [0, 1] = false :=
  ⟨((c10_size_only_ordering [0] [0, 1]).2 (by simp) (by simp)).1.mpr (by simp),
   ((c10_size_only_ordering ([] : List Nat) [0, 1]).1 (Or.inl rfl)).2.2.1⟩

/-- C4 (code bug): on the empty container `head` does fail with the
empty-access error, but `pop()` (default index `-1`) fails with a plain
`IndexError` — the source checks `index < 0 or index >= self.size` before
its (therefore unreachable) `size == 0` branch — and the `IndexError` is
not the empty-access error class the claim requires. -/
theorem c4_empty_pop_error_is_index_error :
    headM ([] : List Nat) = .error .emptyAccess ∧
    popM ([] : List Nat) (-1) = .error (.indexError (-1)) ∧
    Err.indexError (-1) ≠ Err.emptyAccess := by
  refine ⟨rfl, by decide, by decide⟩

/-- C5 (code bug): the container built from the one-element sequence `[1]`
has size 1 and iterates forward as `[1]`, but its reversed iteration yields
`[1, 1]` — the single node is both the tail yielded inside the loop and the
head yielded once more after it — not the reverse `[1]` the claim states. -/
theorem c5_singleton_reversed_duplicates :
    (CDLList.fromIterable ([1] : List Nat)).size = 1 ∧
    (CDLList.fromIterable ([1] : List Nat)).iterVals = [1] ∧
    (CDLList.fromIterable ([1] : List Nat)).iterValsRev = [1, 1] ∧
    ([1, 1] : List Nat) ≠ [1] := by decide

/-- C2 (code bug): building from `[0,1,2]` by `append` satisfies the cycle
invariant at every reachable node, but `insert(1, 99)` breaks it: the
interior branch ends with `ith_node.left = ith_node.right` instead of
linking back to the freshly created node. -/
theorem c2_insert_breaks_cycle_invariant :
    (CDLList.fromIterable ([0, 1, 2] : List Nat)).cycleOK = true ∧
    ((CDLList.fromIterable ([0, 1, 2] : List Nat)).insert 1 99).map
      CDLList.cycleOK = .ok false := by decide

/-- C6 counterexample: dividing the container built from `range(9)` by 2
yields the chunks `[0,1,2,3]` and `[4,5,6,7]` — each of size
`9 // 2 = 4`, the trailing element `8` is dropped — not
`[0,1,2,3]` and `[4,5,6,7,8]` as the claim states. -/
theorem c6_divide_drops_remainder :
    floordivM ([0, 1, 2, 3, 4, 5, 6, 7, 8] : List Nat) 2 =
      .ok [[0, 1, 2, 3], [4, 5, 6, 7]] ∧
    ([[0, 1, 2, 3], [4, 5, 6, 7]] : List (List Nat)) ≠
      [[0, 1, 2, 3], [4, 5, 6, 7, 8]] := by decide

/-- C1 counterexample: for the container built from `[1,2,3]`, `c >> 4` is
NOT `c >> (4 % 3)` — the former returns the container unchanged
(`self or ...` short-circuits), the latter rotates to `[2,3,1]` — and it is
not `[3,1,2]` with head 3 as the claim states either. -/
theorem c1_rshift_mod_cex :
    rshiftM ([1, 2, 3] : List Nat) 4 ≠ rshiftM [1, 2, 3] (4 % 3) ∧
    rshiftM ([1, 2, 3] : List Nat) 4 ≠ some [3, 1, 2] := by
  rw [rshiftM, rshiftM]
  norm_num [lshiftM, peekM]

/-- C1 amended: for every non-empty container and every `k >= size`,
`c >> k` returns the container unchanged: `self or (self >> (by %
self.size))` short-circuits on a truthy (non-empty) container, so the
documented modulo reduction never runs; in particular `[1,2,3] >> 4`
leaves the content order `[1,2,3]` with the head still at value 1. -/
theorem c1_rshift_large_is_noop (l : List α) (k : Int) (hne : l ≠ [])
    (hk : (l.length : Int) ≤ k) : rshiftM l k = some l := by
  have h0 : l.length ≠ 0 := length_ne_zero_of_ne_nil hne
  rw [rshiftM]
  rw [dif_neg (by omega), dif_neg (by omega), dif_pos hk, if_pos h0]

/-- Witness for C1 at the container built from `[1,2,3]` and `k = 4`. -/
theorem c1_rshift_large_is_noop_w :
    rshiftM ([1, 2, 3] : List Nat) 4 = some [1, 2, 3] :=
  c1_rshift_large_is_noop [1, 2, 3] 4 (by decide) (by norm_num)

/-- C3 (code bug): rotating the empty container right by 1 reaches
`self or (self >> (by % self.size))` with a falsy (empty) receiver, so
Python evaluates `1 % 0` and raises `ZeroDivisionError` (`none` in the
model) instead of the no-op round trip the claim requires. -/
theorem c3_empty_rotation_raises : rshiftM ([] : List Nat) 1 = none := by
  rw [rshiftM]
  norm_num

theorem groups_zero (stepN : Nat) (l : List α) : groups stepN 0 l = [] := rfl

theorem groups_succ (stepN k : Nat) (l : List α) :
    groups stepN (k + 1) l = l.take stepN :: groups stepN k (l.drop stepN) := by
  unfold groups
  rw [List.range_succ_eq_map]
  simp only [List.map_cons, List.map_map, Nat.zero_mul, List.drop_zero]
  congr 1
  apply List.map_congr_left
  intro j _
  have e := Nat.succ_mul j stepN
  simp only [Function.comp_apply, List.drop_drop]
  congr 2
  omega

theorem groups_join (stepN k : Nat) (l : List α) :
    (groups stepN k l).flatten = l.take (k * stepN) := by
  induction k generalizing l with
  | zero => simp [groups]
  | succ k ih =>
    rw [groups_succ]
    simp only [List.flatten_cons, ih]
    rw [← List.take_add]
    have e : (k + 1) * stepN = k * stepN + stepN := Nat.succ_mul k stepN
    congr 1
    omega

theorem groups_chunk_length (stepN k : Nat) (l : List α)
    (hk : k * stepN ≤ l.length) :
    ∀ c ∈ groups stepN k l, c.length = stepN := by
  intro c hc
  simp only [groups, List.mem_map, List.mem_range] at hc
  obtain ⟨j, hj, rfl⟩ := hc
  rw [List.length_take, List.length_drop]
  have h1 : (j + 1) * stepN ≤ k * stepN := Nat.mul_le_mul_right _ (by omega)
  rw [Nat.succ_mul] at h1
  omega

theorem take_pos_cons (n : Nat) (h : 1 ≤ n) (a : α) (l : List α) :
    (a :: l).take n = a :: l.take (n - 1) := by
  cases n with
  | zero => omega
  | succ n => simp

theorem drop_pos_cons (n : Nat) (h : 1 ≤ n) (a : α) (l : List α) :
    (a :: l).drop n = l.drop (n - 1) := by
  cases n with
  | zero => omega
  | succ n => simp

theorem floordivGo_spec (stepN n : Nat) (hstep : 1 ≤ stepN) (rest : List α) :
    ∀ (q s : Nat) (cur : List α) (res : List (List α)),
      1 ≤ s → s ≤ stepN → stepN * q + s < stepN * n →
      stepN * n - (stepN * q + s) ≤ rest.length →
      floordivGo stepN (stepN * n) rest (stepN * q + s) cur res =
        res ++ (cur ++ rest.take (stepN - s)) ::
          groups stepN (n - (q + 1)) (rest.drop (stepN - s)) := by
  induction rest with
  | nil =>
    intro q s cur res h1 h2 h3 h4
    simp only [List.length_nil] at h4
    omega
  | cons v rest ih =>
    intro q s cur res h1 h2 h3 h4
    have emul : stepN * (q + 1) = stepN * q + stepN := Nat.mul_succ stepN q
    simp only [floordivGo]
    rcases Nat.lt_or_ge s stepN with hs | hs
    · -- interior of a chunk: no flush
      have hcond : ¬(stepN * q + s ≠ 0 ∧
          (stepN * q + s < stepN * n ∧ (stepN * q + s) % stepN = 0)) := by
        intro h
        have hm : (stepN * q + s) % stepN = s := by
          rw [Nat.mul_add_mod, Nat.mod_eq_of_lt hs]
        omega
      rw [if_neg hcond]
      by_cases hend : stepN * q + s + 1 = stepN * n
      · rw [if_pos hend]
        have hq : q < n := by
          have h5 : stepN * q < stepN * n := by omega
          exact Nat.lt_of_mul_lt_mul_left h5
        have esum : stepN * n = stepN * q + stepN * (n - q) := by
          rw [← Nat.mul_add]
          congr 1
          omega
        have hle : stepN ≤ stepN * (n - q) := by
          have : stepN * 1 ≤ stepN * (n - q) := Nat.mul_le_mul_left _ (by omega)
          simpa using this
        have hseq : s + 1 = stepN ∧ n - q = 1 := by
          have h6 : stepN * (n - q) = s + 1 := by omega
          have h7 : stepN * (n - q) = stepN := by omega
          have h8 : n - q = 1 := by
            have := Nat.eq_of_mul_eq_mul_left (show 0 < stepN by omega)
              (h7.trans (Nat.mul_one stepN).symm)
            exact this
          exact ⟨by omega, h8⟩
        have e1 : stepN - s = 1 := by omega
        have e2 : n - (q + 1) = 0 := by omega
        rw [e1, e2, groups_zero]
        simp
      · rw [if_neg hend]
        have eidx : stepN * q + s + 1 = stepN * q + (s + 1) := by omega
        rw [eidx, ih q (s + 1) (cur ++ [v]) res (by omega) (by omega) (by omega)
          (by simp only [List.length_cons] at h4; omega)]
        have e1 : stepN - s = (stepN - (s + 1)) + 1 := by omega
        rw [e1, List.take_succ_cons, List.drop_succ_cons]
        simp
    · -- s = stepN: arriving at a chunk boundary, flush
      have hs' : s = stepN := by omega
      have hcond : (stepN * q + s ≠ 0 ∧
          (stepN * q + s < stepN * n ∧ (stepN * q + s) % stepN = 0)) := by
        refine ⟨by omega, h3, ?_⟩
        have e9 : stepN * q + s = stepN * (q + 1) := by omega
        rw [e9, Nat.mul_mod_right]
      rw [if_pos hcond]
      have hq1 : q + 1 < n := by
        have h5 : stepN * (q + 1) < stepN * n := by omega
        exact Nat.lt_of_mul_lt_mul_left h5
      have esum : stepN * n = stepN * (q + 1) + stepN * (n - (q + 1)) := by
        rw [← Nat.mul_add]
        congr 1
        omega
      by_cases hend : stepN * q + s + 1 = stepN * n
      · rw [if_pos hend]
        have h6 : stepN * (n - (q + 1)) = 1 := by omega
        have h7 : stepN = 1 := by
          have hT : 1 ≤ n - (q + 1) := by omega
          have hle : stepN * 1 ≤ stepN * (n - (q + 1)) := Nat.mul_le_mul_left stepN hT
          simp only [Nat.mul_one] at hle
          omega
        have h8 : n - (q + 1) = 1 := by
          rw [h7, Nat.one_mul] at h6
          exact h6
        have e1 : stepN - s = 0 := by omega
        have e2 : n - (q + 1) = 0 + 1 := by omega
        rw [e1, e2, List.drop_zero, groups_succ, groups_zero, take_pos_cons stepN hstep]
        have e5 : stepN - 1 = 0 := by omega
        rw [e5]
        simp
      · rw [if_neg hend]
        have eidx : stepN * q + s + 1 = stepN * (q + 1) + 1 := by omega
        rw [eidx, ih (q + 1) 1 [v] (res ++ [cur]) (by omega) (by omega) (by omega)
          (by simp only [List.length_cons] at h4; omega)]
        have e0 : stepN - s = 0 := by omega
        have e3 : n - (q + 1) = (n - (q + 1 + 1)) + 1 := by omega
        rw [e0, e3, List.take_zero, List.drop_zero, groups_succ,
          take_pos_cons stepN hstep, drop_pos_cons stepN hstep]
        simp

theorem floordivGo_eq_groups (stepN n : Nat) (hstep : 1 ≤ stepN) (hn : 1 ≤ n)
    (l : List α) (hlen : stepN * n ≤ l.length) :
    floordivGo stepN (stepN * n) l 0 [] [] = groups stepN n l := by
  have h9 : 1 * 1 ≤ stepN * n := Nat.mul_le_mul hstep hn
  rw [Nat.one_mul] at h9
  cases l with
  | nil => simp only [List.length_nil] at hlen; omega
  | cons v rest =>
    simp only [floordivGo]
    rw [if_neg (show ¬((0 : Nat) ≠ 0 ∧ (0 < stepN * n ∧ 0 % stepN = 0)) by simp)]
    by_cases hone : 0 + 1 = stepN * n
    · rw [if_pos hone]
      have h7 : stepN = 1 := by
        have hle : stepN * 1 ≤ stepN * n := Nat.mul_le_mul_left stepN hn
        rw [Nat.mul_one] at hle
        omega
      have h8 : n = 1 := by
        rw [h7, Nat.one_mul] at hone
        omega
      subst h7
      subst h8
      simp [groups_succ, groups_zero]
    · rw [if_neg hone]
      have hlen' : stepN * n ≤ rest.length + 1 := by
        have := hlen
        simp only [List.length_cons] at this
        omega
      have big := floordivGo_spec stepN n hstep rest 0 1 [v] []
        (by omega) hstep (by omega) (by omega)
      simp only [Nat.mul_zero, Nat.zero_add] at big
      simp only [List.nil_append] at big ⊢
      rw [big]
      have hn1 : n = (n - 1) + 1 := by omega
      conv_rhs => rw [hn1, groups_succ]
      rw [take_pos_cons stepN hstep, drop_pos_cons stepN hstep]
      simp

theorem floordivM_eq (l : List α) (n : Int) (h1 : 1 ≤ n)
    (h2 : n ≤ (l.length : Int)) :
    floordivM l n = .ok (groups (l.length / n.toNat) n.toNat l) := by
  unfold floordivM
  rw [if_neg (by omega), if_neg (by omega)]
  show Except.ok (floordivGo (l.length / n.toNat) (l.length / n.toNat * n.toNat)
      l 0 [] []) = Except.ok (groups (l.length / n.toNat) n.toNat l)
  congr 1
  apply floordivGo_eq_groups
  · exact (Nat.one_le_div_iff (by omega)).mpr (by omega)
  · omega
  · exact Nat.div_mul_le_self l.length n.toNat

theorem peekM_valid (l : List α) (i : Int) (h1 : 0 ≤ i)
    (h2 : i < (l.length : Int)) : peekM l i = l.get? i.toNat := by
  simp only [peekM]
  rw [if_neg (show ¬i < 0 by omega)]
  rw [if_neg (by omega)]
  by_cases hmid : l.length / 2 < i.toNat
  · rw [if_pos hmid]
    rw [List.get?_eq_getElem?, List.get?_eq_getElem?, List.getElem?_reverse (by omega)]
    congr 1
    omega
  · rw [if_neg hmid]

theorem mapM_peek_range (l : List α) (c : Nat) :
    ∀ s : Nat, s + c ≤ l.length →
      ((List.range c).map fun k : Nat => ((s : Int) + k)).mapM (fun i => peekM l i) =
        some ((l.drop s).take c) := by
  induction c with
  | zero => intro s h; rfl
  | succ c ih =>
    intro s h
    rw [List.range_succ_eq_map]
    simp only [List.map_cons, List.map_map, List.mapM_cons]
    have hs : s < l.length := by omega
    have hv : peekM l ((s : Int) + (0 : Nat)) = l.get? s := by
      rw [show ((s : Int) + (0 : Nat)) = (s : Int) by push_cast; ring]
      rw [peekM_valid l s (by omega) (by omega)]
      simp
    rw [hv, List.get?_eq_get hs]
    have hmap : (List.range c).map ((fun k : Nat => ((s : Int) + k)) ∘ Nat.succ) =
        (List.range c).map fun k : Nat => (((s + 1 : Nat) : Int) + k) := by
      apply List.map_congr_left
      intro j _
      simp only [Function.comp_apply]
      push_cast
      ring
    rw [hmap, ih (s + 1) (by omega)]
    simp only [Option.some_bind, Option.pure_def]
    rw [List.drop_eq_getElem_cons hs, List.take_succ_cons]
    simp

theorem sliceNorm_neg_start (len rem : Nat) (h1 : 1 ≤ rem) (h2 : rem ≤ len) :
    sliceNorm (some (-(rem : Int))) none none len =
      (-(rem : Int) + len, (len : Int), 1) := by
  unfold sliceNorm
  norm_num
  rw [if_pos (show 0 < rem by omega), if_neg (show ¬(len < rem) by omega)]

theorem sliceCount_neg_start (len rem : Nat) (h1 : 1 ≤ rem) (_h2 : rem ≤ len) :
    sliceCount (-(rem : Int) + len) len 1 = rem := by
  unfold sliceCount
  rw [if_pos (by norm_num), if_pos (by omega)]
  norm_num
  omega

theorem getitemSlice_neg_suffix (l : List α) (rem : Nat) (h1 : 1 ≤ rem)
    (h2 : rem ≤ l.length) :
    getitemSlice l (some (-(rem : Int))) none none =
      .ok (l.drop (l.length - rem)) := by
  have hpts : slicePts (some (-(rem : Int))) none none l.length =
      (List.range rem).map fun k : Nat =>
        (((l.length - rem : Nat) : Int) + k) := by
    unfold slicePts
    rw [sliceNorm_neg_start l.length rem h1 h2]
    show (List.range (sliceCount (-(rem : Int) + l.length) l.length 1)).map
        (fun k : Nat => (-(rem : Int) + l.length) + (k : Int) * 1) = _
    rw [sliceCount_neg_start l.length rem h1 h2]
    apply List.map_congr_left
    intro j _
    omega
  unfold getitemSlice
  rw [if_neg (by simp), hpts]
  rw [mapM_peek_range l rem (l.length - rem) (by omega)]
  show Except.ok (List.take rem (List.drop (l.length - rem) l)) =
    Except.ok (List.drop (l.length - rem) l)
  congr 1
  apply List.take_of_length_le
  simp only [List.length_drop]
  omega

/-- C6 amended: for every container and every integer `n` with
`1 <= n <= size`, `divide(n)` returns exactly `n` contiguous chunks, each of
size exactly `size // n`, whose concatenation is the first `n * (size // n)`
elements of the container (the trailing `size mod n` elements are not part
of any chunk; they are what `remainder(n)` returns). -/
theorem c6_divide_equal_chunks (l : List α) (n : Int) (h1 : 1 ≤ n)
    (h2 : n ≤ (l.length : Int)) :
    ∃ cs, floordivM l n = .ok cs ∧ cs.length = n.toNat ∧
      (∀ c ∈ cs, c.length = l.length / n.toNat) ∧
      cs.flatten = l.take (n.toNat * (l.length / n.toNat)) := by
  refine ⟨_, floordivM_eq l n h1 h2, ?_, ?_, ?_⟩
  · simp [groups]
  · exact groups_chunk_length _ _ _
      (by rw [Nat.mul_comm]; exact Nat.div_mul_le_self l.length n.toNat)
  · rw [groups_join, Nat.mul_comm]

/-- Witness for C6 at the container built from `range(9)` and `n = 2`:
two chunks of four elements covering `[0..7]`. -/
theorem c6_divide_equal_chunks_w :
    ∃ cs, floordivM ([0, 1, 2, 3, 4, 5, 6, 7, 8] : List Nat) 2 = .ok cs ∧
      cs.length = 2 ∧ (∀ c ∈ cs, c.length = 4) ∧
      cs.flatten = [0, 1, 2, 3, 4, 5, 6, 7] := by
  obtain ⟨cs, hcs, ha, hb, hc⟩ :=
    c6_divide_equal_chunks ([0, 1, 2, 3, 4, 5, 6, 7, 8] : List Nat) 2
      (by norm_num) (by norm_num)
  refine ⟨cs, hcs, by simpa using ha, by simpa using hb, by simpa using hc⟩

/-- C7: for every container and every `n >= 1` (including `n > size`),
concatenating the containers of `divide(n)` in order and appending the
container of `remainder(n)` reproduces the original container. -/
theorem c7_partition_law (l : List α) (n : Int) (h1 : 1 ≤ n) :
    ∃ cs r, floordivM l n = .ok cs ∧ modM l n = .ok r ∧
      cs.flatten ++ r = l := by
  by_cases hgt : (l.length : Int) < n
  · refine ⟨[[]], l, ?_, ?_, by simp⟩
    · unfold floordivM
      rw [if_neg (by omega), if_pos hgt]
    · unfold modM
      rw [if_neg (by omega), if_pos hgt]
  · push_neg at hgt
    by_cases hz : l.length % n.toNat = 0
    · refine ⟨_, [], floordivM_eq l n h1 hgt, ?_, ?_⟩
      · unfold modM
        rw [if_neg (by omega), if_neg (by omega)]
        simp [hz]
      · rw [groups_join, Nat.mul_comm]
        have hd : n.toNat * (l.length / n.toNat) = l.length :=
          Nat.mul_div_cancel' (Nat.dvd_of_mod_eq_zero hz)
        rw [Nat.mul_comm] at hd
        rw [hd]
        simp
    · refine ⟨_, l.drop (l.length - l.length % n.toNat),
        floordivM_eq l n h1 hgt, ?_, ?_⟩
      · unfold modM
        rw [if_neg (by omega), if_neg (by omega), if_pos hz]
        exact getitemSlice_neg_suffix l (l.length % n.toNat) (by omega)
          (by exact le_trans (le_of_lt (Nat.mod_lt _ (by omega))) (by omega))
      · rw [groups_join, Nat.mul_comm]
        have h5 := Nat.div_add_mod l.length n.toNat
        have hd : n.toNat * (l.length / n.toNat) =
            l.length - l.length % n.toNat := by omega
        rw [Nat.mul_comm] at hd
        rw [hd]
        exact List.take_append_drop _ l

/-- Witness for C7 at the container built from `range(9)` and `n = 2`. -/
theorem c7_partition_law_w :
    ∃ cs r, floordivM ([0, 1, 2, 3, 4, 5, 6, 7, 8] : List Nat) 2 = .ok cs ∧
      modM ([0, 1, 2, 3, 4, 5, 6, 7, 8] : List Nat) 2 = .ok r ∧
      cs.flatten ++ r = [0, 1, 2, 3, 4, 5, 6, 7, 8] :=
  c7_partition_law ([0, 1, 2, 3, 4, 5, 6, 7, 8] : List Nat) 2 (by norm_num)

/-- C8: an extended-slice write (`step` not `0`, `1` or `-1`) whose value
count differs from the number of slice positions fails with the
length-mismatch error carrying both lengths; in the source the raise
precedes the assignment loop, so the container is left unchanged (the model
returns the error before any positional write). -/
theorem c8_extended_write_length_mismatch (l vals : List α)
    (start stop step : Int) (h0 : step ≠ 0) (hp1 : step ≠ 1) (_hm1 : step ≠ -1)
    (hm : (slicePts (some start) (some stop) (some step) l.length).length ≠
      vals.length) :
    setitemSlice l (some start) (some stop) (some step) vals =
      .error (.lengthMismatch vals.length
        (slicePts (some start) (some stop) (some step) l.length).length) := by
  have hst : (sliceNorm (some start) (some stop) (some step) l.length).2.2 =
      step := rfl
  unfold setitemSlice
  rw [if_neg (by simpa using h0)]
  rw [if_neg (show ¬((slicePts (some start) (some stop) (some step)
      l.length).length = l.length ∧ (sliceNorm (some start) (some stop)
      (some step) l.length).2.2 = 1) from fun h => hp1 ((hst.symm.trans h.2)))]
  rw [if_neg (show ¬((sliceNorm (some start) (some stop) (some step)
      l.length).2.2 = 1) from fun h => hp1 (hst.symm.trans h))]
  rw [if_pos hm]

/-- Witness for C8: writing one value into the two positions of `[0:4:2]`
on a four-element container. -/
theorem c8_extended_write_length_mismatch_w :
    setitemSlice ([0, 1, 2, 3] : List Nat) (some 0) (some 4) (some 2) [5] =
      .error (.lengthMismatch 1 2) := by
  have h := c8_extended_write_length_mismatch ([0, 1, 2, 3] : List Nat) [5]
    0 4 2 (by decide) (by decide) (by decide) (by decide)
  exact h.trans (by decide)

theorem keepOutFrom_cons (pts : List Int) (i : Nat) (a : α) (rest : List α) :
    keepOutFrom pts i (a :: rest) =
      if (i : Int) ∈ pts then keepOutFrom pts (i + 1) rest
      else a :: keepOutFrom pts (i + 1) rest := rfl

theorem keepOutFrom_ge (pts : List Int) :
    ∀ (i : Nat) (l : List α), (∀ x ∈ pts, x < (i : Int)) →
      keepOutFrom pts i l = l := by
  intro i l
  induction l generalizing i with
  | nil => intro _; rfl
  | cons a as ih =>
    intro h
    unfold keepOutFrom
    rw [if_neg (fun hmem => absurd (h _ hmem) (by omega))]
    rw [ih (i + 1) (fun x hx => by have := h x hx; omega)]

theorem keepOutFrom_nil_pts : ∀ (i : Nat) (l : List α),
    keepOutFrom ([] : List Int) i l = l := by
  intro i l
  exact keepOutFrom_ge [] i l (by simp)

theorem keepOutFrom_congr (pts pts' : List Int)
    (h : ∀ x : Int, x ∈ pts ↔ x ∈ pts') :
    ∀ (i : Nat) (l : List α), keepOutFrom pts i l = keepOutFrom pts' i l := by
  intro i l
  induction l generalizing i with
  | nil => rfl
  | cons a as ih =>
    unfold keepOutFrom
    by_cases hm : (i : Int) ∈ pts
    · rw [if_pos hm, if_pos ((h _).mp hm), ih]
    · rw [if_neg hm, if_neg (fun hc => hm ((h _).mpr hc)), ih]

theorem eraseIdx_eq_keepOut : ∀ (l : List α) (d j : Nat),
    keepOutFrom [((d + j : Nat) : Int)] j l = l.eraseIdx d := by
  intro l
  induction l with
  | nil => intro d j; rfl
  | cons a as ih =>
    intro d j
    unfold keepOutFrom
    cases d with
    | zero =>
      rw [if_pos (by simp)]
      rw [keepOutFrom_ge _ _ _ (by intro x hx; simp at hx; omega)]
      rfl
    | succ e =>
      rw [if_neg (by simp; omega)]
      rw [show ((e + 1 + j : Nat) : Int) = ((e + (j + 1) : Nat) : Int) by
        congr 1; omega]
      rw [ih e (j + 1)]
      rfl

theorem keepOut_comp (pts : List Int) (d : Int) (hlt : ∀ x ∈ pts, x < d) :
    ∀ (l : List α) (i : Nat),
      keepOutFrom pts i (keepOutFrom [d] i l) = keepOutFrom (d :: pts) i l := by
  intro l
  induction l with
  | nil => intro i; rfl
  | cons a as ih =>
    intro i
    by_cases hid : (i : Int) = d
    · rw [keepOutFrom_cons [d], if_pos (by simp [hid]),
        keepOutFrom_ge [d] (i + 1) as (by intro x hx; simp at hx; omega),
        keepOutFrom_ge pts i as (by intro x hx; have := hlt x hx; omega),
        keepOutFrom_cons (d :: pts), if_pos (by simp [hid])]
      exact (keepOutFrom_ge _ (i + 1) as (by
        intro x hx
        simp only [List.mem_cons] at hx
        rcases hx with rfl | hx
        · omega
        · have := hlt x hx; omega)).symm
    · rw [keepOutFrom_cons [d], if_neg (by simp [hid]), keepOutFrom_cons pts,
        keepOutFrom_cons (d :: pts)]
      by_cases hm : (i : Int) ∈ pts
      · rw [if_pos hm, if_pos (by simp [hm]), ih (i + 1)]
      · rw [if_neg hm, if_neg (by simp [hm, hid]), ih (i + 1)]

theorem popStep (l : List α) (d : Int) (h1 : 0 ≤ d) (h2 : d < (l.length : Int)) :
    (popM l d).map Prod.snd = .ok (l.eraseIdx d.toNat) := by
  unfold popM
  rw [if_neg (show ¬d < 0 by omega), if_neg (by omega),
    if_neg (show ¬l.length = 0 by omega)]
  by_cases hone : l.length = 1
  · rw [if_pos hone]
    have hd0 : d = 0 := by omega
    subst hd0
    cases l with
    | nil => simp at hone
    | cons x xs =>
      have hxs : xs = [] := by
        simp only [List.length_cons] at hone
        exact List.length_eq_zero.mp (by omega)
      subst hxs
      rfl
  · rw [if_neg hone]
    by_cases hz : d = 0
    · rw [if_pos hz]
      subst hz
      cases l with
      | nil => simp at h2
      | cons x xs =>
        unfold popleftM
        rw [if_neg (by simp)]
        rfl
    · rw [if_neg hz]
      have hlt : d.toNat < l.length := by omega
      obtain ⟨v, hv⟩ : ∃ v, l.get? d.toNat = some v := by
        rw [List.get?_eq_get hlt]
        exact ⟨_, rfl⟩
      rw [hv]
      rfl

theorem foldPop (ds : List Int) : ∀ (l : List α),
    ds.Pairwise (· > ·) → (∀ x ∈ ds, 0 ≤ x ∧ x < (l.length : Int)) →
    ds.foldlM (fun acc i => (popM acc i).map Prod.snd) l =
      .ok (keepOut l ds) := by
  induction ds with
  | nil =>
    intro l _ _
    unfold keepOut
    rw [keepOutFrom_nil_pts]
    rfl
  | cons d ds ih =>
    intro l hpw hbd
    rw [List.foldlM_cons]
    obtain ⟨hd0, hdlen⟩ := hbd d (List.mem_cons_self d ds)
    rw [popStep l d hd0 hdlen]
    have hlen : (l.eraseIdx d.toNat).length = l.length - 1 := by
      rw [List.length_eraseIdx]
      simp only [if_pos (show d.toNat < l.length by omega)]
    have hds : ∀ x ∈ ds, x < d := fun x hx =>
      (List.pairwise_cons.mp hpw).1 x hx
    have step2 := ih (l.eraseIdx d.toNat) (List.pairwise_cons.mp hpw).2
      (by
        intro x hx
        obtain ⟨hx0, _⟩ := hbd x (List.mem_cons_of_mem d hx)
        have := hds x hx
        rw [hlen]
        constructor
        · exact hx0
        · omega)
    show (Except.ok (l.eraseIdx d.toNat) >>= fun acc =>
        ds.foldlM (fun acc i => (popM acc i).map Prod.snd) acc) = _
    rw [show (Except.ok (l.eraseIdx d.toNat) >>= fun acc =>
        ds.foldlM (fun acc i => (popM acc i).map Prod.snd) acc) =
        ds.foldlM (fun acc i => (popM acc i).map Prod.snd)
          (l.eraseIdx d.toNat) from rfl]
    rw [step2]
    unfold keepOut
    have herase : l.eraseIdx d.toNat = keepOutFrom [d] 0 l := by
      have h9 := eraseIdx_eq_keepOut l d.toNat 0
      rw [show ((d.toNat + 0 : Nat) : Int) = d by omega] at h9
      exact h9.symm
    rw [herase, keepOut_comp ds d hds l 0]

theorem slicePts_eq (start stop step : Option Int) (len : Nat) (s e st : Int)
    (hsn : sliceNorm start stop step len = (s, e, st)) :
    slicePts start stop step len =
      (List.range (sliceCount s e st)).map fun k : Nat => s + (k : Int) * st := by
  unfold slicePts
  rw [hsn]

theorem sliceNorm_step (start stop step : Option Int) (len : Nat) :
    (sliceNorm start stop step len).2.2 = step.getD 1 := by
  unfold sliceNorm
  cases start <;> cases stop <;> rfl

theorem sliceNorm_bounds (start stop step : Option Int) (len : Nat)
    (s e st : Int) (h : sliceNorm start stop step len = (s, e, st)) :
    (0 ≤ st → 0 ≤ s ∧ s ≤ len ∧ 0 ≤ e ∧ e ≤ len) ∧
    (st < 0 → -1 ≤ s ∧ s ≤ (len : Int) - 1 ∧ -1 ≤ e ∧ e ≤ (len : Int) - 1) := by
  cases start <;> cases stop
  all_goals
    simp only [sliceNorm, Prod.mk.injEq] at h
    obtain ⟨h1, h2, h3⟩ := h
    subst h1
    subst h2
    subst h3
    exact ⟨fun hst => by split_ifs <;> omega, fun hst => by split_ifs <;> omega⟩

theorem slicePts_bounds (start stop step : Option Int) (len : Nat)
    (s e st : Int) (hsn : sliceNorm start stop step len = (s, e, st))
    (hstz : st ≠ 0) :
    ∀ x ∈ slicePts start stop step len, 0 ≤ x ∧ x < (len : Int) := by
  intro x hx
  rw [slicePts_eq start stop step len s e st hsn] at hx
  simp only [List.mem_map, List.mem_range] at hx
  obtain ⟨k, hk, rfl⟩ := hx
  have hb := sliceNorm_bounds start stop step len s e st hsn
  unfold sliceCount at hk
  rcases lt_or_gt_of_ne hstz with hst | hst
  · rw [if_neg (by omega)] at hk
    by_cases hse : e < s
    · rw [if_pos hse] at hk
      have hk' : k ≤ (s - e - 1).toNat / (-st).toNat := by omega
      have hdiv : k * (-st).toNat ≤ (s - e - 1).toNat :=
        (Nat.le_div_iff_mul_le (by omega)).mp hk'
      have hcast : ((k * (-st).toNat : Nat) : Int) = -((k : Int) * st) := by
        push_cast
        rw [Int.toNat_of_nonneg (by omega)]
        ring
      have hb2 := hb.2 hst
      omega
    · rw [if_neg hse] at hk
      omega
  · rw [if_pos hst] at hk
    by_cases hse : s < e
    · rw [if_pos hse] at hk
      have hk' : k ≤ (e - s - 1).toNat / st.toNat := by omega
      have hdiv : k * st.toNat ≤ (e - s - 1).toNat :=
        (Nat.le_div_iff_mul_le (by omega)).mp hk'
      have hcast : ((k * st.toNat : Nat) : Int) = (k : Int) * st := by
        push_cast
        rw [Int.toNat_of_nonneg (by omega)]
      have hb1 := hb.1 (by omega)
      omega
    · rw [if_neg hse] at hk
      omega

theorem slicePts_pairwise_asc (start stop step : Option Int) (len : Nat)
    (s e st : Int) (hsn : sliceNorm start stop step len = (s, e, st))
    (hst : 0 < st) : (slicePts start stop step len).Pairwise (· < ·) := by
  rw [slicePts_eq start stop step len s e st hsn]
  exact List.Pairwise.map _
    (fun a b (hab : a < b) => by
      have : (a : Int) * st < (b : Int) * st := by
        apply mul_lt_mul_of_pos_right _ hst
        exact_mod_cast hab
      omega)
    (List.pairwise_lt_range _)

theorem slicePts_pairwise_desc (start stop step : Option Int) (len : Nat)
    (s e st : Int) (hsn : sliceNorm start stop step len = (s, e, st))
    (hst : st < 0) : (slicePts start stop step len).Pairwise (· > ·) := by
  rw [slicePts_eq start stop step len s e st hsn]
  exact List.Pairwise.map _
    (fun a b (hab : a < b) => by
      have : (b : Int) * st < (a : Int) * st := by
        apply mul_lt_mul_of_neg_right _ hst
        exact_mod_cast hab
      have goal : s + (b : Int) * st < s + (a : Int) * st := by omega
      exact goal)
    (List.pairwise_lt_range _)

theorem keepOut_all (pts : List Int) :
    ∀ (l : List α) (i0 : Nat),
      (∀ j : Nat, j < l.length → ((i0 + j : Nat) : Int) ∈ pts) →
      keepOutFrom pts i0 l = [] := by
  intro l
  induction l with
  | nil => intro i0 _; rfl
  | cons a as ih =>
    intro i0 h
    rw [keepOutFrom_cons, if_pos (by simpa using h 0 (by simp))]
    exact ih (i0 + 1) (by
      intro j hj
      have := h (j + 1) (by simp only [List.length_cons]; omega)
      rw [show ((i0 + 1 + j : Nat) : Int) = ((i0 + (j + 1) : Nat) : Int) by
        congr 1; omega]
      exact this)

theorem mem_of_length_nodup (pts : List Int) (len : Nat)
    (hbd : ∀ x ∈ pts, 0 ≤ x ∧ x < (len : Int)) (hnd : pts.Nodup)
    (hlen : pts.length = len) : ∀ i : Nat, i < len → (i : Int) ∈ pts := by
  intro i hi
  have hsub : pts.toFinset ⊆ Finset.Icc (0 : Int) ((len : Int) - 1) := by
    intro x hx
    rw [List.mem_toFinset] at hx
    rw [Finset.mem_Icc]
    have := hbd x hx
    omega
  have hcard : (Finset.Icc (0 : Int) ((len : Int) - 1)).card = len := by
    rw [Int.card_Icc]
    omega
  have hcard2 : pts.toFinset.card = len := by
    rw [List.toFinset_card_of_nodup hnd, hlen]
  have heq : pts.toFinset = Finset.Icc (0 : Int) ((len : Int) - 1) :=
    Finset.eq_of_subset_of_card_le hsub (by omega)
  have hmem : (i : Int) ∈ pts.toFinset := by
    rw [heq, Finset.mem_Icc]
    omega
  rwa [List.mem_toFinset] at hmem

theorem slicePts_length (start stop step : Option Int) (len : Nat)
    (s e st : Int) (hsn : sliceNorm start stop step len = (s, e, st)) :
    (slicePts start stop step len).length = sliceCount s e st := by
  rw [slicePts_eq start stop step len s e st hsn]
  simp

theorem sliceCount_pos_dir (s e st : Int) (hst : 0 < st)
    (h : sliceCount s e st ≠ 0) : s < e := by
  unfold sliceCount at h
  rw [if_pos hst] at h
  by_contra hc
  rw [if_neg hc] at h
  exact h rfl

theorem sliceCount_neg_dir (s e st : Int) (hst : st < 0)
    (h : sliceCount s e st ≠ 0) : e < s := by
  unfold sliceCount at h
  rw [if_neg (by omega)] at h
  by_contra hc
  rw [if_neg hc] at h
  exact h rfl

/-- C9: for every extended-step range delete (`step` not `0`, `1` or `-1`),
exactly the elements at the normalized slice positions are removed and all
other elements keep their original relative order (`keepOut`). -/
theorem c9_extended_delete (l : List α) (start stop step : Int)
    (h0 : step ≠ 0) (hp1 : step ≠ 1) (hm1 : step ≠ -1) :
    delitemSlice l (some start) (some stop) (some step) =
      .ok (keepOut l
        (slicePts (some start) (some stop) (some step) l.length)) := by
  rcases hsn : sliceNorm (some start) (some stop) (some step) l.length
    with ⟨s, e, st⟩
  have hstv : st = step := by
    have h9 := sliceNorm_step (some start) (some stop) (some step) l.length
    rw [hsn] at h9
    simpa using h9
  unfold delitemSlice
  rw [if_neg (by simpa using h0), hsn]
  by_cases hA : (slicePts (some start) (some stop) (some step)
      l.length).length = l.length
  · rw [if_pos hA]
    congr 1
    symm
    apply keepOut_all _ l 0
    intro j hj
    have hnd : (slicePts (some start) (some stop) (some step)
        l.length).Nodup := by
      rcases lt_or_gt_of_ne (show st ≠ 0 by omega) with hst | hst
      · exact ((slicePts_pairwise_desc _ _ _ _ s e st hsn hst).imp
          fun h => ne_of_gt h)
      · exact ((slicePts_pairwise_asc _ _ _ _ s e st hsn hst).imp
          fun h => ne_of_lt h)
    have := mem_of_length_nodup _ l.length
      (slicePts_bounds _ _ _ _ s e st hsn (by omega)) hnd hA j hj
    simpa using this
  · rw [if_neg hA]
    by_cases hB : (slicePts (some start) (some stop) (some step)
        l.length).length = 0 ∨ l.length = 0
    · rw [if_pos hB]
      rcases hB with hB | hB
      · have : slicePts (some start) (some stop) (some step) l.length = [] :=
          List.length_eq_zero.mp hB
        rw [this]
        unfold keepOut
        rw [keepOutFrom_nil_pts]
      · have : l = [] := List.length_eq_zero.mp hB
        subst this
        rfl
    · rw [if_neg hB]
      push_neg at hB
      obtain ⟨hBp, hBl⟩ := hB
      rw [if_neg (show ¬((s, e, st).2.2 = 1 ∨ (s, e, st).2.2 = -1) by
        simp only []
        omega)]
      have hcount : sliceCount s e st ≠ 0 := by
        rw [← slicePts_length _ _ _ _ s e st hsn]
        exact hBp
      by_cases hdir : s < e
      · rw [if_pos (show (s, e, st).1 < (s, e, st).2.1 from hdir)]
        have hst : 0 < st := by
          rcases lt_or_gt_of_ne (show st ≠ 0 by omega) with hst | hst
          · exact absurd (sliceCount_neg_dir s e st hst hcount) (by omega)
          · exact hst
        have hpw := slicePts_pairwise_asc _ _ _ _ s e st hsn hst
        have hbd := slicePts_bounds _ _ _ _ s e st hsn (by omega)
        rw [foldPop _ l
          (List.pairwise_reverse.mpr (by
            exact hpw.imp fun {a b} h => h))
          (by
            intro x hx
            rw [List.mem_reverse] at hx
            have := hbd x hx
            omega)]
        congr 1
        unfold keepOut
        exact keepOutFrom_congr _ _ (fun x => List.mem_reverse) 0 l
      · rw [if_neg (show ¬((s, e, st).1 < (s, e, st).2.1) from hdir)]
        have hst : st < 0 := by
          rcases lt_or_gt_of_ne (show st ≠ 0 by omega) with hst | hst
          · exact hst
          · exact absurd (sliceCount_pos_dir s e st hst hcount) (by omega)
        have hpw := slicePts_pairwise_desc _ _ _ _ s e st hsn hst
        have hbd := slicePts_bounds _ _ _ _ s e st hsn (by omega)
        exact foldPop _ l hpw (by
          intro x hx
          have := hbd x hx
          omega)

/-- Witness for C9: deleting `[2:10:3]` from the container built from
`range(10)` removes positions 2, 5 and 8. -/
theorem c9_extended_delete_w :
    delitemSlice ([0, 1, 2, 3, 4, 5, 6, 7, 8, 9] : List Nat)
      (some 2) (some 10) (some 3) = .ok [0, 1, 3, 4, 6, 7, 9] := by
  rw [c9_extended_delete ([0, 1, 2, 3, 4, 5, 6, 7, 8, 9] : List Nat) 2 10 3
    (by decide) (by decide) (by decide)]
  decide
